import Mathlib

/-!
# Verification of the `nyuck` repository (files `glarf.py` and `nyuck.py`)

This file gives a shallow embedding in Lean 4 of the two Python scripts of the
repository and settles the frozen claims about them.

Modelling conventions:
* Python dicts are insertion-ordered association lists; `d[k] = v` updates the
  existing entry in place (keeping its position) or appends a new one.
* networkx graphs are a list of `(key, attribute record)` nodes (insertion
  order) together with a list of edges; `add_node` on an existing key merges
  the supplied attributes into the stored ones, `add_edge` on an existing edge
  is a no-op on the edge list (networkx rejects duplicate edges) and creates
  missing endpoint nodes with empty attribute dicts.
* Calls into external libraries that cannot be reproduced (the
  `SentenceTransformer` embedder, the `requests` + `BeautifulSoup` fetch/parse
  pipeline) are function parameters of the operations that use them.
* `sklearn.metrics.pairwise.cosine_similarity` is modelled exactly over the
  real numbers (exact arithmetic standing in for IEEE floats), including
  sklearn's handling of zero rows: a zero norm is replaced by `1` before
  normalising, so the cosine of the zero vector with anything is `0`.
* A Python expression that can raise (`KeyError` on a dict or on node
  attributes) is modelled in `Option`: `none` means the call raises.
-/

namespace Nyuck

/-- Insertion-ordered lookup in an association list (Python `d[k]`,
`none` = `KeyError`). -/
def dlookup (d : List (String × α)) (k : String) : Option α :=
  (d.find? (fun p => p.1 = k)).map (fun p => p.2)

/-- Key membership in an association list (Python `k in d`). -/
def hasKey (d : List (String × α)) (k : String) : Bool :=
  d.any (fun p => p.1 = k)

/-- Python `d[k] = v`: update in place if the key exists, else append. -/
def dinsert (d : List (String × α)) (k : String) (v : α) : List (String × α) :=
  if hasKey d k then d.map (fun p => if p.1 = k then (p.1, v) else p)
  else d ++ [(k, v)]

/-- Sequential `Option`-valued map: the Lean rendering of a Python `for` loop
whose body may raise; `none` propagates the first exception. -/
def mapO (f : α → Option β) : List α → Option (List β)
  | [] => some []
  | a :: l =>
    match f a with
    | none => none
    | some b => (mapO f l).map (fun bs => b :: bs)

/-- Dot product of two embedding vectors (`numpy` dot, exact arithmetic). -/
def dotL (x y : List ℝ) : ℝ := (List.zipWith (· * ·) x y).sum

/-- The euclidean norm as used by `sklearn.preprocessing.normalize`: rows with
zero norm have the norm replaced by `1` (so they normalise to zero rows). -/
noncomputable def fixNorm (v : List ℝ) : ℝ :=
  if Real.sqrt (dotL v v) = 0 then 1 else Real.sqrt (dotL v v)

/-- `sklearn.metrics.pairwise.cosine_similarity` of two single-row inputs:
normalise each row (with the zero-norm fix) and take the dot product.  This is
the similarity used both in `GraphRAG.query` (ranking) and in
`GraphRAG.add_edge` (edge weighting) in `nyuck.py`. -/
noncomputable def cosineSim (x y : List ℝ) : ℝ :=
  dotL x y / (fixNorm x * fixNorm y)

/-- Attributes stored on a node of the `nyuck.py` web graph (`content=` and
`embedding=` keyword arguments of `graph.add_node`; both absent on nodes that
were created implicitly by `graph.add_edge`). -/
structure WebAttrs where
  content : Option String
  embedding : Option (List ℝ)

/-- The whole mutable state of a `GraphRAG` object from `nyuck.py`:
the undirected graph (node list and edge list with a `weight` attribute that
may be `None`) and the two caches. -/
structure RAGState where
  gnodes : List (String × WebAttrs)
  gedges : List ((String × String) × Option ℝ)
  content_cache : List (String × String)
  embedding_cache : List (String × List ℝ)

/-- The empty state produced by `GraphRAG.__init__`. -/
def initState : RAGState := ⟨[], [], [], []⟩

/-- Python `' '.join(text.split())`: collapse whitespace runs. -/
def normWS (s : String) : String :=
  String.intercalate " " ((s.split (fun c => c.isWhitespace)).filter (fun t => t != ""))

/-- `GraphRAG.scrape_website`.  The `requests.get` + `BeautifulSoup` +
`get_text` pipeline inside the `try` block is the external parameter `impl`
(`Except.error` = that pipeline raised); the final whitespace cleanup
`' '.join(text.split())` is the script's own code and is concrete.  The
`except` branch returns the empty string. -/
def scrape_website (impl : String → Except String String) (url : String) : String :=
  match impl url with
  | .ok text => normWS text
  | .error _ => ""

/-- `GraphRAG.add_node`: if the url is not yet a graph node, scrape it, fill
both caches and insert the node with `content` and `embedding` attributes.
`embed` is the external `SentenceTransformer.encode` call. -/
def add_node (impl : String → Except String String) (embed : String → List ℝ)
    (s : RAGState) (url : String) : RAGState :=
  if hasKey s.gnodes url then s
  else
    let content := scrape_website impl url
    let emb := embed content
    { gnodes := s.gnodes ++ [(url, ⟨some content, some emb⟩)]
      gedges := s.gedges
      content_cache := dinsert s.content_cache url content
      embedding_cache := dinsert s.embedding_cache url emb }

/-- Two undirected networkx edges are the same up to orientation. -/
def sameEdge (a b : String × String) : Bool :=
  (a.1 = b.1 && a.2 = b.2) || (a.1 = b.2 && a.2 = b.1)

/-- networkx `Graph.add_edge`: update the weight of an existing (undirected)
edge in place, or append a new edge. -/
def edgeInsert (es : List ((String × String) × Option ℝ)) (u1 u2 : String)
    (w : Option ℝ) : List ((String × String) × Option ℝ) :=
  if es.any (fun e => sameEdge e.1 (u1, u2)) then
    es.map (fun e => if sameEdge e.1 (u1, u2) then (e.1, w) else e)
  else es ++ [((u1, u2), w)]

/-- Ensure a node key exists (networkx `add_edge` creates missing endpoints
with an empty attribute dict). -/
def ensureNode (ns : List (String × WebAttrs)) (u : String) : List (String × WebAttrs) :=
  if hasKey ns u then ns else ns ++ [(u, ⟨none, none⟩)]

/-- `GraphRAG.add_edge`: when no weight is supplied and both urls have cached
embeddings, weight the edge by cosine similarity of the cached embeddings;
otherwise keep the supplied weight (possibly `None`).  Never touches the
caches. -/
noncomputable def add_edge (s : RAGState) (u1 u2 : String) (w : Option ℝ) : RAGState :=
  let w' :=
    match w with
    | some x => some x
    | none =>
      if hasKey s.embedding_cache u1 && hasKey s.embedding_cache u2 then
        some (cosineSim ((dlookup s.embedding_cache u1).getD [])
          ((dlookup s.embedding_cache u2).getD []))
      else none
  { s with
    gnodes := ensureNode (ensureNode s.gnodes u1) u2
    gedges := edgeInsert s.gedges u1 u2 w' }

/-- Neighbors of a node in the undirected edge list. -/
def nbrs (s : RAGState) (u : String) : List String :=
  s.gedges.filterMap (fun e =>
    if e.1.1 = u then some e.1.2 else if e.1.2 = u then some e.1.1 else none)

/-- Python list slicing `l[:k]` for an arbitrary integer `k` (a negative `k`
drops the last `|k|` elements). -/
def pyTake (l : List α) (k : Int) : List α :=
  if 0 ≤ k then l.take k.toNat else l.take (l.length - k.natAbs)

/-- One entry of the list returned by `GraphRAG.query`. -/
structure QueryResult where
  url : String
  content : String
  similarity : ℝ
  neighbors : List String

/-- The descending stable comparison used by
`similarities.sort(key=lambda x: x[1], reverse=True)`. -/
noncomputable def simLe (a b : String × ℝ) : Bool := decide (b.2 ≤ a.2)

/-- `GraphRAG.query`: embed the query, look up every graph node's cached
embedding (`KeyError` = `none` if any node is missing from the cache), rank by
cosine similarity with Python's stable descending sort, truncate to `top_k`
and build the result records (looking up the content cache, again a possible
`KeyError`). -/
noncomputable def query (embed : String → List ℝ) (s : RAGState) (q : String)
    (top_k : Int) : Option (List QueryResult) :=
  match mapO (fun p => (dlookup s.embedding_cache p.1).map
      (fun e => (p.1, cosineSim (embed q) e))) s.gnodes with
  | none => none
  | some sims =>
    mapO (fun pr => (dlookup s.content_cache pr.1).map
        (fun c => ⟨pr.1, c.take 500 ++ "...", pr.2, nbrs s pr.1⟩))
      (pyTake (sims.mergeSort simLe) top_k)

/-- The similarity row `[(url, cosine(query, cached embedding)), ...]` that
`query` computes before sorting, written with total lookups (meaningful when
every node has a cached embedding). -/
noncomputable def nodeSims (embed : String → List ℝ) (s : RAGState) (q : String) :
    List (String × ℝ) :=
  s.gnodes.map (fun p => (p.1, cosineSim (embed q) ((dlookup s.embedding_cache p.1).getD [])))

/-- Concrete state for the C4 counterexample: one node with a cached
embedding but no cached content. -/
noncomputable def s4c : RAGState := ⟨[("a", ⟨none, some [1]⟩)], [], [], [("a", [1])]⟩

/-- Concrete fully-cached state for the C4 witness. -/
noncomputable def s4 : RAGState :=
  ⟨[("a", ⟨some "c", some [1]⟩)], [], [("a", "c")], [("a", [1])]⟩

end Nyuck

namespace Glarf

/-- One SPARQL result binding as consumed by
`DBpediaMedicalGraphRAG.query_medical_entity`.  `entity`, `label` and `type_`
are the variables the code reads unconditionally (`result["…"]["value"]`);
`description`, `related` and `relatedLabel` come from `OPTIONAL` clauses and
may be absent. -/
structure Binding where
  entity : String
  label : String
  type_ : String
  description : Option String
  related : Option String
  relatedLabel : Option String
deriving DecidableEq

/-- A related-entity record `{"uri": …, "label": …}`. -/
structure RelatedEntity where
  uri : String
  label : String
deriving DecidableEq

/-- The `MedicalEntity` dataclass of `glarf.py`. -/
structure MedicalEntity where
  uri : String
  label : String
  description : Option String
  entity_type : String
  related_entities : List RelatedEntity
  source_links : List String
deriving DecidableEq

/-- Python `uri.split("/")[-1]` (the last path segment of the type URI). -/
def lastSeg (s : String) : String := (s.splitOn "/").getLastD ""

/-- The record `entity_data[uri]` is initialised with when a binding's entity
URI is first seen. -/
def initRec (b : Binding) : MedicalEntity :=
  { uri := b.entity
    label := b.label
    description := b.description
    entity_type := lastSeg b.type_
    related_entities := []
    source_links := [b.entity] }

/-- The related pair appended for a binding, when both `related` and
`relatedLabel` are present. -/
def relPair (b : Binding) : Option RelatedEntity :=
  match b.related, b.relatedLabel with
  | some r, some rl => some ⟨r, rl⟩
  | _, _ => none

/-- Key membership in an association list keyed by strings. -/
def hasKeyE (d : List (String × MedicalEntity)) (k : String) : Bool :=
  d.any (fun p => p.1 = k)

/-- Lookup in an association list keyed by strings (first entry wins, as in a
Python dict where keys are unique). -/
def lookupE : List (String × MedicalEntity) → String → Option MedicalEntity
  | [], _ => none
  | p :: t, k => if p.1 = k then some p.2 else lookupE t k

/-- In-place update of the entry at a key (Python mutates the dict value). -/
def updAt (d : List (String × MedicalEntity)) (k : String)
    (f : MedicalEntity → MedicalEntity) : List (String × MedicalEntity) :=
  d.map (fun p => if p.1 = k then (p.1, f p.2) else p)

/-- One iteration of the `for result in results["results"]["bindings"]` loop
building `entity_data`: create the record at the binding's entity URI if it is
new, then append the related pair (if both optional fields are present) to
that record. -/
def bindStep (acc : List (String × MedicalEntity)) (b : Binding) :
    List (String × MedicalEntity) :=
  let acc1 := if hasKeyE acc b.entity then acc else acc ++ [(b.entity, initRec b)]
  match relPair b with
  | some p => updAt acc1 b.entity
      (fun m => { m with related_entities := m.related_entities ++ [p] })
  | none => acc1

/-- The full `entity_data` insertion-ordered dict built from the bindings. -/
def entityData (bs : List Binding) : List (String × MedicalEntity) :=
  bs.foldl bindStep []

/-- `DBpediaMedicalGraphRAG.query_medical_entity`, as a function of the list
of bindings of the SPARQL response: build `entity_data` and return the record
of the first URI (`next(iter(entity_data))`), or `None` if there are no
bindings. -/
def query_medical_entity (bs : List Binding) : Option MedicalEntity :=
  (entityData bs).head?.map (fun p => p.2)

/-- The related pairs a list of bindings contributes to the record of URI `u`,
in binding order. -/
def relsOf (u : String) (bs : List Binding) : List RelatedEntity :=
  bs.filterMap (fun b => if b.entity = u then relPair b else none)

/-- Independent characterisation of the record `query_medical_entity` returns
for a non-empty response whose first binding is `b0`: label, description and
type come from `b0`, and the related list collects, in order, the pairs of
every binding that carries `b0`'s entity URI together with both `related` and
`relatedLabel`. -/
def buildRecord (b0 : Binding) (bs : List Binding) : MedicalEntity :=
  { initRec b0 with related_entities := relsOf b0.entity bs }

/-- Attributes stored on a node of the `glarf.py` knowledge graph.  `label`,
`entity_type` and `description` are set by `update_knowledge_graph` (the
description *value* may itself be `None`), `uri` is added later by
`generate_rag_context`. -/
structure GNodeAttrs where
  label : Option String
  entity_type : Option String
  description : Option (Option String)
  uri : Option String
deriving DecidableEq

/-- The empty attribute dict of a freshly created node. -/
def emptyAttrs : GNodeAttrs := ⟨none, none, none, none⟩

/-- The directed knowledge graph (`nx.DiGraph`): insertion-ordered node list
with attributes, and an insertion-ordered duplicate-free edge list. -/
structure KGraph where
  nodes : List (String × GNodeAttrs)
  edges : List (String × String)
deriving DecidableEq

/-- The empty graph of `DBpediaMedicalGraphRAG.__init__`. -/
def emptyKG : KGraph := ⟨[], []⟩

/-- Node-key membership. -/
def hasNode (g : KGraph) (k : String) : Bool := g.nodes.any (fun p => p.1 = k)

/-- The attribute dict of a node (`none` if the key is not a node). -/
def attrAt (g : KGraph) (k : String) : Option GNodeAttrs :=
  (g.nodes.find? (fun p => p.1 = k)).map (fun p => p.2)

/-- networkx `add_node(k, **attrs)`: merge `f` into the attributes of an
existing node, or append a new node whose attributes are `f` applied to the
empty dict. -/
def addNodeWith (g : KGraph) (k : String) (f : GNodeAttrs → GNodeAttrs) : KGraph :=
  if hasNode g k then
    { g with nodes := g.nodes.map (fun p => if p.1 = k then (p.1, f p.2) else p) }
  else { g with nodes := g.nodes ++ [(k, f emptyAttrs)] }

/-- networkx edge insertion creates missing endpoints with empty attributes. -/
def ensureNodeK (g : KGraph) (k : String) : KGraph :=
  if hasNode g k then g else { g with nodes := g.nodes ++ [(k, emptyAttrs)] }

/-- networkx `DiGraph.add_edge`: create missing endpoints, and append the edge
unless it is already present (a duplicate `add_edge` silently no-ops). -/
def addEdgeK (g : KGraph) (u v : String) : KGraph :=
  let g1 := ensureNodeK (ensureNodeK g u) v
  if (u, v) ∈ g1.edges then g1 else { g1 with edges := g1.edges ++ [(u, v)] }

/-- networkx `number_of_edges()`. -/
def edgeCount (g : KGraph) : Nat := g.edges.length

/-- `DBpediaMedicalGraphRAG.update_knowledge_graph`: upsert the main entity
node with label/type/description, then for each related entity upsert its node
with its label and add the edge from the main entity to it. -/
def update_knowledge_graph (e : MedicalEntity) (g : KGraph) : KGraph :=
  let g1 := addNodeWith g e.uri (fun a =>
    { a with
      label := some e.label
      entity_type := some e.entity_type
      description := some e.description })
  e.related_entities.foldl
    (fun acc r => addEdgeK (addNodeWith acc r.uri (fun a => { a with label := some r.label }))
      e.uri r.uri)
    g1

/-! ### First-order write operations, used to reason about `update_knowledge_graph`

`update_knowledge_graph` only ever *sets* attribute fields to constants and
appends edges, so it is the interpretation of a list of first-order
operations; idempotence is proved once for all such lists. -/

/-- A partial attribute write: `some v` sets the field to `v`, `none` leaves
it alone.  The `uri` field is never written by graph updates. -/
structure FieldW where
  wlabel : Option String
  wtype : Option String
  wdescr : Option (Option String)
deriving DecidableEq

/-- The write that changes nothing. -/
def emptyW : FieldW := ⟨none, none, none⟩

/-- Apply a write to an attribute record. -/
def applyW (w : FieldW) (a : GNodeAttrs) : GNodeAttrs :=
  ⟨w.wlabel.or a.label, w.wtype.or a.entity_type, w.wdescr.or a.description, a.uri⟩

/-- Compose two writes, the first argument being the *later* one. -/
def mergeW (w2 w1 : FieldW) : FieldW :=
  ⟨w2.wlabel.or w1.wlabel, w2.wtype.or w1.wtype, w2.wdescr.or w1.wdescr⟩

/-- A graph operation: upsert a node with an attribute write, or add an
edge. -/
inductive GOp
  | setn (k : String) (w : FieldW)
  | edge (u v : String)
deriving DecidableEq

/-- Interpret one operation. -/
def applyOp (g : KGraph) : GOp → KGraph
  | .setn k w => addNodeWith g k (applyW w)
  | .edge u v => addEdgeK g u v

/-- Interpret a list of operations left to right. -/
def applyOps (g : KGraph) (ops : List GOp) : KGraph := ops.foldl applyOp g

/-- The write an operation performs at a given key. -/
def writeOf (op : GOp) (k : String) : FieldW :=
  match op with
  | .setn k' w => if k' = k then w else emptyW
  | .edge _ _ => emptyW

/-- The composite write a list of operations performs at a key. -/
def totalW : List GOp → String → FieldW
  | [], _ => emptyW
  | op :: rest, k => mergeW (totalW rest k) (writeOf op k)

/-- Whether an operation touches (creates or writes) a key. -/
def touches (op : GOp) (k : String) : Bool :=
  match op with
  | .setn k' _ => k' = k
  | .edge u v => u = k || v = k

/-- Whether any operation in the list touches the key. -/
def touched (ops : List GOp) (k : String) : Bool := ops.any (fun op => touches op k)

/-- The operation list of one `update_knowledge_graph` call. -/
def opsOf (e : MedicalEntity) : List GOp :=
  GOp.setn e.uri ⟨some e.label, some e.entity_type, some e.description⟩ ::
    e.related_entities.flatMap
      (fun r => [GOp.setn r.uri ⟨some r.label, none, none⟩, GOp.edge e.uri r.uri])

/-! ### `generate_rag_context` -/

/-- The character codes of a string (strings are handled as code sequences so
that everything evaluates inside the kernel). -/
def codes (s : String) : List Nat := s.data.map (fun c => c.toNat)

/-- ASCII rendering of Python `str.lower()` on one character code. -/
def lowerCode (n : Nat) : Nat := if 65 ≤ n ∧ n ≤ 90 then n + 32 else n

/-- The (ASCII) whitespace codes Python `str.split()` splits on. -/
def isSpaceCode (n : Nat) : Bool := n = 32 || (9 ≤ n && n ≤ 13)

/-- Is the first sequence a leading block of the second? -/
def isPref : List Nat → List Nat → Bool
  | [], _ => true
  | _ :: _, [] => false
  | a :: as, b :: bs => a = b && isPref as bs

/-- Python substring test `needle in hay` on code sequences. -/
def containsSeq (hay needle : List Nat) : Bool :=
  match hay with
  | [] => needle.isEmpty
  | _ :: t => isPref needle hay || containsSeq t needle

/-- Python `s.lower()` as a code sequence (ASCII case folding). -/
def pyLower (s : String) : List Nat := (codes s).map lowerCode

/-- Python `s.lower().split()`: split the lowered string on whitespace runs,
dropping empty tokens. -/
def pyTokens (s : String) : List (List Nat) :=
  ((pyLower s).splitOnP isSpaceCode).filter (fun t => !t.isEmpty)

/-- The node-selection test of `generate_rag_context`:
`any(term.lower() in data.get('label', '').lower() for term in query.lower().split())`
(a node with no `label` attribute contributes the empty label). -/
def matchesQ (q : String) (a : GNodeAttrs) : Bool :=
  (pyTokens q).any (fun term => containsSeq (pyLower (a.label.getD "")) (term.map lowerCode))

/-- The mutation `data['uri'] = node` applied to the (single) graph node with
key `k`. -/
def setUriAt (g : KGraph) (k : String) : KGraph :=
  { g with
    nodes := g.nodes.map
      (fun p => if p.1 = k then (p.1, { p.2 with uri := some p.1 }) else p) }

/-- The first loop of `generate_rag_context`: scan all nodes in insertion
order, and for each node whose label matches the query set its `uri` attribute
in the graph and collect its (mutated) attribute dict. -/
def ragScan (g : KGraph) (q : String) : KGraph × List GNodeAttrs :=
  g.nodes.foldl
    (fun acc p =>
      if matchesQ q p.2 then (setUriAt acc.1 p.1, acc.2 ++ [{ p.2 with uri := some p.1 }])
      else acc)
    (g, [])

/-- Successors of a node in the directed edge list (networkx
`DiGraph.neighbors`). -/
def succs (g : KGraph) (u : String) : List String :=
  g.edges.filterMap (fun e => if e.1 = u then some e.2 else none)

/-- Python `f"{x}"` of an optional string attribute (`None` prints as
`"None"`). -/
def pyStr (o : Option String) : String :=
  match o with
  | none => "None"
  | some s => s

/-- `node_data.get('description', 'No description available')` rendered in the
f-string: the default only applies when the key is absent; a stored `None`
prints as `"None"`. -/
def descD (a : GNodeAttrs) : String :=
  match a.description with
  | none => "No description available"
  | some none => "None"
  | some (some s) => s

/-- The context block contributed by one collected node: its description line
plus, when the node has neighbors, a `Related:` line.  The neighbor-label
lookups `knowledge_graph.nodes[n]['label']` can raise (`none`). -/
def entryFor (g : KGraph) (a : GNodeAttrs) : Option String :=
  match a.uri with
  | none => none
  | some u =>
    (Nyuck.mapO (fun n => (attrAt g n).bind (fun na => na.label)) (succs g u)).map
      (fun ls =>
        "- " ++ pyStr a.label ++ ": " ++ descD a ++ "\n" ++
          (if ls.isEmpty then ""
           else "  Related: " ++ String.intercalate ", " ls ++ "\n"))

/-- The second loop of `generate_rag_context`: concatenate the fixed header
with every collected node's block (an exception while reading neighbor labels
aborts the call). -/
def buildContext (g : KGraph) (rels : List GNodeAttrs) : Option String :=
  (Nyuck.mapO (entryFor g) rels).map
    (fun lines => "Medical Knowledge Context:\n\n" ++ String.join lines)

/-- `DBpediaMedicalGraphRAG.generate_rag_context`: returns the mutated graph
(the method writes `uri` attributes into it) and the context string, `none`
meaning the call raised. -/
def generate_rag_context (g : KGraph) (q : String) : KGraph × Option String :=
  let s := ragScan g q
  (s.1, buildContext s.1 s.2)

/-- The context block of a matching node `p`, phrased over the *original*
graph (labels and edges are not affected by the `uri` mutation). -/
def lineFor (g : KGraph) (p : String × GNodeAttrs) : String :=
  "- " ++ pyStr p.2.label ++ ": " ++ descD p.2 ++ "\n" ++
    (if ((succs g p.1).map (fun n => ((attrAt g n).bind (fun na => na.label)).getD "")).isEmpty
     then ""
     else "  Related: " ++
       String.intercalate ", "
         ((succs g p.1).map (fun n => ((attrAt g n).bind (fun na => na.label)).getD "")) ++ "\n")

/-- Concrete bindings for the C3 witness: two bindings sharing one entity URI,
the first carrying both `related` and `relatedLabel`, the second missing
`related`. -/
def bsEx : List Binding :=
  [⟨"http://dbpedia.org/resource/X", "xlab", "http://dbpedia.org/ontology/Disease",
      none, some "http://dbpedia.org/resource/R", some "rlab"⟩,
    ⟨"http://dbpedia.org/resource/X", "xlab", "http://dbpedia.org/ontology/Disease",
      none, none, some "orphanLabel"⟩]

/-- Concrete entity with one related entity, for the C1 counterexample. -/
def e1 : MedicalEntity :=
  ⟨"http://dbpedia.org/resource/X", "xlab", none, "Disease",
    [⟨"http://dbpedia.org/resource/R", "rlab"⟩], ["http://dbpedia.org/resource/X"]⟩

/-- Concrete two-node graph with one edge, for the C5 and C8 witnesses:
node `A` (label `alpha`) points at node `B` (label `beta`). -/
def g5 : KGraph :=
  ⟨[("A", ⟨some "alpha", none, none, none⟩), ("B", ⟨some "beta", none, none, none⟩)],
    [("A", "B")]⟩

end Glarf

/-! ## Helper lemmas -/

namespace Nyuck

theorem mapO_eq_none {f : α → Option β} {l : List α} {a : α} (ha : a ∈ l)
    (hfa : f a = none) : mapO f l = none := by
  induction l with
  | nil => cases ha
  | cons x xs ih =>
    rcases List.mem_cons.mp ha with h | h
    · subst h; simp [mapO, hfa]
    · cases hx : f x with
      | none => simp [mapO, hx]
      | some b => simp [mapO, hx, ih h]

theorem mapO_eq_some {f : α → Option β} (gfun : α → β) {l : List α}
    (h : ∀ a ∈ l, f a = some (gfun a)) : mapO f l = some (l.map gfun) := by
  induction l with
  | nil => rfl
  | cons x xs ih =>
    have hx := h x (List.mem_cons_self x xs)
    simp [mapO, hx, ih (fun a ha => h a (List.mem_cons_of_mem x ha))]

theorem dlookup_eq_none {d : List (String × α)} {k : String}
    (h : hasKey d k = false) : dlookup d k = none := by
  induction d with
  | nil => rfl
  | cons p ps ih =>
    simp only [hasKey, List.any_cons, Bool.or_eq_false_iff] at h
    simp only [dlookup, List.find?_cons, h.1]
    exact ih h.2

theorem dlookup_isSome_of_hasKey {d : List (String × α)} {k : String}
    (h : hasKey d k = true) : (dlookup d k).isSome = true := by
  induction d with
  | nil => cases h
  | cons p ps ih =>
    simp only [hasKey, List.any_cons, Bool.or_eq_true] at h
    by_cases hk : p.1 = k
    · simp [dlookup, List.find?_cons, hk]
    · simp only [dlookup, List.find?_cons, hk]
      simp only [decide_eq_true_eq] at *
      rcases h with h | h
      · exact absurd h hk
      · simpa [dlookup] using ih h

theorem hasKey_exists_mem {d : List (String × α)} {k : String}
    (h : hasKey d k = true) : ∃ v, (k, v) ∈ d := by
  simp only [hasKey, List.any_eq_true, decide_eq_true_eq] at h
  obtain ⟨p, hp, hk⟩ := h
  exact ⟨p.2, by rwa [← hk, Prod.mk.eta]⟩

theorem hasKey_ensureNode_self (ns : List (String × WebAttrs)) (u : String) :
    hasKey (ensureNode ns u) u = true := by
  unfold ensureNode
  by_cases h : hasKey ns u = true
  · rw [if_pos h]; exact h
  · rw [if_neg h]
    unfold hasKey
    rw [List.any_append]
    simp

theorem hasKey_ensureNode_mono {ns : List (String × WebAttrs)} {k : String}
    (u : String) (h : hasKey ns k = true) : hasKey (ensureNode ns u) k = true := by
  unfold ensureNode
  by_cases hu : hasKey ns u = true
  · rw [if_pos hu]; exact h
  · rw [if_neg hu]
    unfold hasKey
    rw [List.any_append]
    unfold hasKey at h
    rw [h]
    rfl

/-! ## C6: scrape failures degrade to the empty string -/

/-- C6: for every URL whose fetch/parse pipeline raises an exception,
`scrape_website` returns the empty string instead of propagating the
exception (the `except Exception` branch). -/
theorem scrape_website_error (impl : String → Except String String) (url e : String)
    (h : impl url = Except.error e) : scrape_website impl url = "" := by
  simp [scrape_website, h]

/-- Witness for C6 at a concrete always-failing fetch. -/
theorem scrape_website_error_witness :
    (fun _ : String => Except.error (ε := String) (α := String) "unreachable") "http://nope"
        = Except.error "unreachable" ∧
      scrape_website (fun _ => Except.error "unreachable") "http://nope" = "" :=
  ⟨rfl, scrape_website_error _ _ "unreachable" rfl⟩

/-! ## C10: `add_node` on an existing node is a no-op -/

/-- C10: if the url is already a graph node, `add_node` returns the state
unchanged — the graph, the content cache and the embedding cache are all
untouched, and no scrape happens (the result does not depend on the fetch or
embedder implementations, which are universally quantified here). -/
theorem add_node_existing_noop (impl : String → Except String String)
    (embed : String → List ℝ) (s : RAGState) (url : String)
    (h : hasKey s.gnodes url = true) : add_node impl embed s url = s := by
  simp [add_node, h]

/-- Witness for C10 at a concrete one-node state. -/
theorem add_node_existing_noop_witness :
    hasKey (RAGState.mk [("u", ⟨none, none⟩)] [] [] []).gnodes "u" = true ∧
      add_node (fun _ => Except.error "e") (fun _ => [])
          (RAGState.mk [("u", ⟨none, none⟩)] [] [] []) "u" =
        RAGState.mk [("u", ⟨none, none⟩)] [] [] [] :=
  ⟨by decide, add_node_existing_noop _ _ _ _ (by decide)⟩

/-! ## C9: `add_edge` with an unknown url poisons every later `query` -/

/-- C9: calling `add_edge` with a url that was never passed to `add_node`
(hence is neither a graph node nor an embedding-cache key) creates a graph
node with no embedding-cache entry, after which every `query`, for every query
string and every `top_k`, hits a `KeyError` (modelled as `none`). -/
theorem add_edge_unknown_url_breaks_query (s : RAGState) (u1 u2 : String)
    (w : Option ℝ) (embed : String → List ℝ)
    (h1 : hasKey s.gnodes u1 = false) (h2 : hasKey s.embedding_cache u1 = false) :
    hasKey (add_edge s u1 u2 w).gnodes u1 = true ∧
      ∀ q k, query embed (add_edge s u1 u2 w) q k = none := by
  constructor
  · exact hasKey_ensureNode_mono u2 (hasKey_ensureNode_self s.gnodes u1)
  · intro q k
    have hmem : ∃ v, (u1, v) ∈ (add_edge s u1 u2 w).gnodes :=
      hasKey_exists_mem (hasKey_ensureNode_mono u2 (hasKey_ensureNode_self s.gnodes u1))
    obtain ⟨v, hv⟩ := hmem
    have hcache : (add_edge s u1 u2 w).embedding_cache = s.embedding_cache := rfl
    have hnone : mapO (fun p => (dlookup (add_edge s u1 u2 w).embedding_cache p.1).map
        (fun e => (p.1, cosineSim (embed q) e))) (add_edge s u1 u2 w).gnodes = none := by
      refine mapO_eq_none hv ?_
      rw [hcache]
      simp [dlookup_eq_none h2]
    unfold query
    rw [hnone]

/-- Witness for C9: an `add_edge` on the fresh state, then a query. -/
theorem add_edge_unknown_url_breaks_query_witness :
    hasKey initState.gnodes "a" = false ∧
      hasKey initState.embedding_cache "a" = false ∧
      hasKey (add_edge initState "a" "b" none).gnodes "a" = true ∧
      query (fun _ => []) (add_edge initState "a" "b" none) "anything" 3 = none :=
  ⟨rfl, rfl,
    (add_edge_unknown_url_breaks_query initState "a" "b" none (fun _ => []) rfl rfl).1,
    (add_edge_unknown_url_breaks_query initState "a" "b" none (fun _ => []) rfl rfl).2
      "anything" 3⟩

/-! ## C7: cosine similarity of identical embeddings -/

/-- Counterexample to C7 as stated: for the identical pair of *zero* vectors,
the cosine similarity computed by the code (sklearn replaces a zero norm by
`1`) is `0`, not `1.0`. -/
theorem cosineSim_zero_vector : cosineSim [(0 : ℝ)] [(0 : ℝ)] ≠ 1 := by
  have hd : dotL [(0 : ℝ)] [(0 : ℝ)] = 0 := by
    simp [dotL]
  have : cosineSim [(0 : ℝ)] [(0 : ℝ)] = 0 := by
    unfold cosineSim fixNorm
    rw [hd]
    simp
  rw [this]
  norm_num

/-- C7 amended: for every pair of identical embedding vectors with some
nonzero coordinate, the cosine similarity used when ranking and when weighting
edges equals `1.0` (exact real arithmetic standing in for floats). -/
theorem cosineSim_self_of_ne_zero (v : List ℝ) (h : ∃ x ∈ v, x ≠ 0) :
    cosineSim v v = 1 := by
  have hd : 0 < dotL v v := by
    unfold dotL
    rw [List.zipWith_same]
    obtain ⟨x, hxv, hx⟩ := h
    have h1 : ∀ y ∈ v.map (fun a => a * a), 0 ≤ y := by
      intro y hy
      obtain ⟨a, _, rfl⟩ := List.mem_map.mp hy
      exact mul_self_nonneg a
    have h2 : x * x ∈ v.map (fun a => a * a) := List.mem_map_of_mem _ hxv
    have h3 : x * x ≤ (v.map (fun a => a * a)).sum := List.single_le_sum h1 _ h2
    have h4 : 0 < x * x := mul_self_pos.mpr hx
    linarith
  have hs : Real.sqrt (dotL v v) ≠ 0 := (Real.sqrt_pos.mpr hd).ne'
  unfold cosineSim fixNorm
  rw [if_neg hs, Real.mul_self_sqrt hd.le]
  exact div_self hd.ne'

/-- Witness for the amended C7 at the concrete vector `[1]`. -/
theorem cosineSim_self_witness :
    (∃ x ∈ [(1 : ℝ)], x ≠ 0) ∧ cosineSim [(1 : ℝ)] [(1 : ℝ)] = 1 :=
  ⟨⟨1, by norm_num⟩, cosineSim_self_of_ne_zero _ ⟨1, by norm_num⟩⟩

/-! ## C4: shape of the ranked list returned by `query` -/

theorem simLe_trans : ∀ a b c : String × ℝ, simLe a b → simLe b c → simLe a c := by
  intro a b c hab hbc
  simp only [simLe, decide_eq_true_eq] at *
  exact le_trans hbc hab

theorem simLe_total : ∀ a b : String × ℝ, simLe a b || simLe b a := by
  intro a b
  rcases le_total b.2 a.2 with h | h
  · simp [simLe, h]
  · simp [simLe, h]

theorem pairwise_of_mem {R : α → α → Prop} {l : List α}
    (h : ∀ a ∈ l, ∀ b ∈ l, R a b) : l.Pairwise R := by
  induction l with
  | nil => exact List.Pairwise.nil
  | cons x xs ih =>
    refine List.Pairwise.cons (fun b hb => ?_) (ih ?_)
    · exact h x (List.mem_cons_self x xs) b (List.mem_cons_of_mem x hb)
    · intro a ha b hb
      exact h a (List.mem_cons_of_mem x ha) b (List.mem_cons_of_mem x hb)

/-- Python's sort is stable, so within a similarity tie the sorted list keeps
the input (node-iteration) order: filtering either list to one similarity
value gives the same sequence. -/
theorem filter_mergeSort_tied (l : List (String × ℝ)) (v : ℝ) :
    (l.mergeSort simLe).filter (fun p => decide (p.2 = v)) =
      l.filter (fun p => decide (p.2 = v)) := by
  have hc : (l.filter (fun p => decide (p.2 = v))).Pairwise (fun a b => simLe a b) := by
    refine pairwise_of_mem (fun a ha b hb => ?_)
    have ha2 : a.2 = v := by simpa using (List.mem_filter.mp ha).2
    have hb2 : b.2 = v := by simpa using (List.mem_filter.mp hb).2
    simp [simLe, ha2, hb2]
  have h1 : List.Sublist (l.filter (fun p => decide (p.2 = v))) (l.mergeSort simLe) :=
    List.sublist_mergeSort simLe_trans simLe_total hc (List.filter_sublist l)
  have h2 := h1.filter (fun p => decide (p.2 = v))
  rw [List.filter_filter] at h2
  have h2' : List.Sublist (l.filter (fun p => decide (p.2 = v)))
      ((l.mergeSort simLe).filter (fun p => decide (p.2 = v))) := by
    simpa using h2
  have hperm : List.Perm ((l.mergeSort simLe).filter (fun p => decide (p.2 = v)))
      (l.filter (fun p => decide (p.2 = v))) :=
    (List.mergeSort_perm l simLe).filter _
  exact (h2'.eq_of_length hperm.length_eq.symm).symm

/-- C4 amended: whenever every graph node has a cached embedding *and* cached
content (the content cache is also read, for the top-k entries), `query`
returns a list of length `min top_k (node count)`, sorted by non-increasing
similarity, and entries with equal similarity keep the node-iteration order
(stability of the underlying sort). -/
theorem query_spec (embed : String → List ℝ) (s : RAGState) (q : String) (k : Int)
    (hk : 0 ≤ k)
    (hemb : ∀ p ∈ s.gnodes, hasKey s.embedding_cache p.1 = true)
    (hcont : ∀ p ∈ s.gnodes, hasKey s.content_cache p.1 = true) :
    ∃ l, query embed s q k = some l ∧
      l.length = min k.toNat s.gnodes.length ∧
      (l.map (fun r => r.similarity)).Pairwise (fun a b => b ≤ a) ∧
      ∀ v : ℝ,
        List.Sublist
          ((l.map (fun r => (r.url, r.similarity))).filter (fun p => decide (p.2 = v)))
          ((nodeSims embed s q).filter (fun p => decide (p.2 = v))) := by
  have hsims : mapO (fun p => (dlookup s.embedding_cache p.1).map
      (fun e => (p.1, cosineSim (embed q) e))) s.gnodes = some (nodeSims embed s q) := by
    refine mapO_eq_some
      (fun p : String × WebAttrs =>
        (p.1, cosineSim (embed q) ((dlookup s.embedding_cache p.1).getD []))) ?_
    intro p hp
    obtain ⟨e, he⟩ := Option.isSome_iff_exists.mp (dlookup_isSome_of_hasKey (hemb p hp))
    simp [he]
  have htopmem : ∀ pr ∈ pyTake ((nodeSims embed s q).mergeSort simLe) k,
      hasKey s.content_cache pr.1 = true := by
    intro pr hpr
    have h1 : pr ∈ (nodeSims embed s q).mergeSort simLe := by
      unfold pyTake at hpr
      rw [if_pos hk] at hpr
      exact List.mem_of_mem_take hpr
    have h2 : pr ∈ nodeSims embed s q := ((List.mergeSort_perm _ simLe).mem_iff).mp h1
    obtain ⟨p, hp, hpe⟩ := List.mem_map.mp h2
    have : pr.1 = p.1 := by rw [← hpe]
    rw [this]
    exact hcont p hp
  have hres : mapO (fun pr => (dlookup s.content_cache pr.1).map
        (fun c => (⟨pr.1, c.take 500 ++ "...", pr.2, nbrs s pr.1⟩ : QueryResult)))
      (pyTake ((nodeSims embed s q).mergeSort simLe) k) =
      some ((pyTake ((nodeSims embed s q).mergeSort simLe) k).map
        (fun pr => ⟨pr.1, ((dlookup s.content_cache pr.1).getD "").take 500 ++ "...",
          pr.2, nbrs s pr.1⟩)) := by
    refine mapO_eq_some _ ?_
    intro pr hpr
    obtain ⟨c, hc⟩ := Option.isSome_iff_exists.mp (dlookup_isSome_of_hasKey (htopmem pr hpr))
    rw [hc]
    simp
  refine ⟨(pyTake ((nodeSims embed s q).mergeSort simLe) k).map
      (fun pr => ⟨pr.1, ((dlookup s.content_cache pr.1).getD "").take 500 ++ "...",
        pr.2, nbrs s pr.1⟩), ?_, ?_, ?_, ?_⟩
  · unfold query
    rw [hsims]
    exact hres
  · rw [List.length_map]
    unfold pyTake
    rw [if_pos hk, List.length_take, List.length_mergeSort]
    unfold nodeSims
    rw [List.length_map]
  · rw [List.map_map]
    have hsorted : ((nodeSims embed s q).mergeSort simLe).Pairwise (fun a b => simLe a b) :=
      List.sorted_mergeSort simLe_trans simLe_total _
    have htake : (pyTake ((nodeSims embed s q).mergeSort simLe) k).Pairwise
        (fun a b => simLe a b) := by
      unfold pyTake
      rw [if_pos hk]
      exact hsorted.sublist (List.take_sublist _ _)
    refine (List.pairwise_map).mpr (htake.imp ?_)
    intro a b hab
    simpa [simLe] using hab
  · intro v
    rw [List.map_map]
    have hproj : ((pyTake ((nodeSims embed s q).mergeSort simLe) k).map
        ((fun r : QueryResult => (r.url, r.similarity)) ∘
          (fun pr : String × ℝ => (⟨pr.1, ((dlookup s.content_cache pr.1).getD "").take 500
            ++ "...", pr.2, nbrs s pr.1⟩ : QueryResult)))) =
        pyTake ((nodeSims embed s q).mergeSort simLe) k := by
      have : ((fun r : QueryResult => (r.url, r.similarity)) ∘
          (fun pr : String × ℝ => (⟨pr.1, ((dlookup s.content_cache pr.1).getD "").take 500
            ++ "...", pr.2, nbrs s pr.1⟩ : QueryResult))) = fun pr => (pr.1, pr.2) := rfl
      rw [this]
      simp
    rw [hproj]
    have h1 : List.Sublist (pyTake ((nodeSims embed s q).mergeSort simLe) k)
        ((nodeSims embed s q).mergeSort simLe) := by
      unfold pyTake
      rw [if_pos hk]
      exact List.take_sublist _ _
    have h2 := h1.filter (fun p => decide (p.2 = v))
    rw [filter_mergeSort_tied] at h2
    exact h2

/-- Counterexample to C4 as stated: in a state where every node *does* have a
cached embedding and `top_k = 1 ≥ 0`, `query` does not return a list at all —
it raises a `KeyError` on the content cache, which the claim's hypothesis
ignores. -/
theorem query_missing_content_cex :
    (∀ p ∈ s4c.gnodes, hasKey s4c.embedding_cache p.1 = true) ∧
      (0 : Int) ≤ 1 ∧
      query (fun _ => [1]) s4c "q" 1 = none := by
  refine ⟨?_, by norm_num, ?_⟩
  · intro p hp
    have : p = ("a", ⟨none, some [1]⟩) := by simpa [s4c] using hp
    rw [this]
    rfl
  · unfold query s4c
    simp [mapO, dlookup, pyTake, List.mergeSort_singleton]

/-- Witness for the amended C4 at a concrete one-node state. -/
theorem query_spec_witness :
    (0 : Int) ≤ 3 ∧
      (∀ p ∈ s4.gnodes, hasKey s4.embedding_cache p.1 = true) ∧
      (∀ p ∈ s4.gnodes, hasKey s4.content_cache p.1 = true) ∧
      (∃ l, query (fun _ => [1]) s4 "x" 3 = some l ∧
        l.length = min (3 : Int).toNat s4.gnodes.length ∧
        (l.map (fun r => r.similarity)).Pairwise (fun a b => b ≤ a) ∧
        ∀ v : ℝ,
          List.Sublist
            ((l.map (fun r => (r.url, r.similarity))).filter (fun p => decide (p.2 = v)))
            ((nodeSims (fun _ => [1]) s4 "x").filter (fun p => decide (p.2 = v)))) := by
  have hemb : ∀ p ∈ s4.gnodes, hasKey s4.embedding_cache p.1 = true := by
    intro p hp
    have : p = ("a", ⟨some "c", some [1]⟩) := by simpa [s4] using hp
    rw [this]
    rfl
  have hcont : ∀ p ∈ s4.gnodes, hasKey s4.content_cache p.1 = true := by
    intro p hp
    have : p = ("a", ⟨some "c", some [1]⟩) := by simpa [s4] using hp
    rw [this]
    rfl
  exact ⟨by norm_num, hemb, hcont, query_spec (fun _ => [1]) s4 "x" 3 (by norm_num) hemb hcont⟩

end Nyuck


namespace Glarf

/-! ## Association-list lemmas for `entity_data` -/

theorem lookupE_head (k : String) (v : MedicalEntity) (t : List (String × MedicalEntity)) :
    lookupE ((k, v) :: t) k = some v := by
  simp [lookupE]

theorem hasKeyE_of_lookupE {d : List (String × MedicalEntity)} {u : String} {m : MedicalEntity}
    (h : lookupE d u = some m) : hasKeyE d u = true := by
  induction d with
  | nil => simp [lookupE] at h
  | cons p ps ih =>
    by_cases hp : p.1 = u
    · simp [hasKeyE, hp]
    · rw [lookupE, if_neg hp] at h
      simp only [hasKeyE, List.any_cons, Bool.or_eq_true]
      right
      exact ih h

theorem lookupE_append_left {d : List (String × MedicalEntity)} {u : String}
    {m : MedicalEntity} (l : List (String × MedicalEntity))
    (h : lookupE d u = some m) : lookupE (d ++ l) u = some m := by
  induction d with
  | nil => simp [lookupE] at h
  | cons p ps ih =>
    by_cases hp : p.1 = u
    · rw [lookupE, if_pos hp] at h
      rw [List.cons_append, lookupE, if_pos hp]
      exact h
    · rw [lookupE, if_neg hp] at h
      rw [List.cons_append, lookupE, if_neg hp]
      exact ih h

theorem lookupE_updAt_self {d : List (String × MedicalEntity)} {u : String}
    {m : MedicalEntity} (f : MedicalEntity → MedicalEntity)
    (h : lookupE d u = some m) : lookupE (updAt d u f) u = some (f m) := by
  induction d with
  | nil => simp [lookupE] at h
  | cons p ps ih =>
    by_cases hp : p.1 = u
    · rw [lookupE, if_pos hp] at h
      rw [Option.some.injEq] at h
      unfold updAt
      rw [List.map_cons, if_pos hp, lookupE]
      simp [hp, h]
    · rw [lookupE, if_neg hp] at h
      unfold updAt
      rw [List.map_cons, if_neg hp, lookupE, if_neg hp]
      exact ih h

theorem lookupE_updAt_ne {d : List (String × MedicalEntity)} {k u : String}
    (f : MedicalEntity → MedicalEntity) (hne : k ≠ u) :
    lookupE (updAt d k f) u = lookupE d u := by
  induction d with
  | nil => rfl
  | cons p ps ih =>
    unfold updAt
    rw [List.map_cons]
    by_cases hp : p.1 = k
    · have hpu : ¬ p.1 = u := fun hh => hne (hp ▸ hh)
      rw [if_pos hp, lookupE, lookupE, if_neg hpu]
      simp only [if_neg hpu]
      exact ih
    · rw [if_neg hp]
      by_cases hpu : p.1 = u
      · rw [lookupE, if_pos hpu, lookupE, if_pos hpu]
      · rw [lookupE, if_neg hpu, lookupE, if_neg hpu]
        exact ih

theorem lookupE_of_head {l : List (String × MedicalEntity)} {k : String}
    {v : MedicalEntity} (h : l.head? = some (k, v)) : lookupE l k = some v := by
  cases l with
  | nil => cases h
  | cons p t =>
    simp only [List.head?_cons, Option.some.injEq] at h
    rw [h]
    exact lookupE_head k v t

theorem bindStep_ne_nil {acc : List (String × MedicalEntity)} (b : Binding)
    (h : acc ≠ []) : bindStep acc b ≠ [] := by
  obtain ⟨p, t, rfl⟩ := List.exists_cons_of_ne_nil h
  unfold bindStep
  cases hrp : relPair b with
  | none =>
    by_cases hk : hasKeyE (p :: t) b.entity <;> simp [hk]
  | some q =>
    by_cases hk : hasKeyE (p :: t) b.entity <;> simp [hk, updAt]

theorem keyOf_bindStep {acc : List (String × MedicalEntity)} (b : Binding)
    (h : acc ≠ []) :
    (bindStep acc b).head?.map Prod.fst = acc.head?.map Prod.fst := by
  obtain ⟨p, t, rfl⟩ := List.exists_cons_of_ne_nil h
  unfold bindStep
  cases hrp : relPair b with
  | none =>
    by_cases hk : hasKeyE (p :: t) b.entity <;> simp [hk]
  | some q =>
    by_cases hk : hasKeyE (p :: t) b.entity <;>
      by_cases hp : p.1 = b.entity <;>
      simp [hk, updAt, hp]

theorem foldl_bindStep_keyOf :
    ∀ (bs : List Binding) (acc : List (String × MedicalEntity)), acc ≠ [] →
      bs.foldl bindStep acc ≠ [] ∧
        (bs.foldl bindStep acc).head?.map Prod.fst = acc.head?.map Prod.fst := by
  intro bs
  induction bs with
  | nil => exact fun acc h => ⟨h, rfl⟩
  | cons b rest ih =>
    intro acc h
    rw [List.foldl_cons]
    obtain ⟨h1, h2⟩ := ih (bindStep acc b) (bindStep_ne_nil b h)
    exact ⟨h1, h2.trans (keyOf_bindStep b h)⟩

/-- Main invariant: folding further bindings over an accumulator extends the
record at key `u` by exactly the related pairs `relsOf u` of those bindings. -/
theorem lookupE_foldl_bindStep :
    ∀ (bs : List Binding) (acc : List (String × MedicalEntity)) (u : String)
      (m : MedicalEntity), lookupE acc u = some m →
      lookupE (bs.foldl bindStep acc) u =
        some { m with related_entities := m.related_entities ++ relsOf u bs } := by
  intro bs
  induction bs with
  | nil =>
    intro acc u m h
    simpa [relsOf] using h
  | cons b rest ih =>
    intro acc u m h
    rw [List.foldl_cons]
    by_cases hbu : b.entity = u
    · have hkey : hasKeyE acc b.entity = true := by
        rw [hbu]; exact hasKeyE_of_lookupE h
      cases hrp : relPair b with
      | some p =>
        have h2 : lookupE (bindStep acc b) u =
            some { m with related_entities := m.related_entities ++ [p] } := by
          unfold bindStep
          rw [if_pos hkey, hrp, hbu]
          exact lookupE_updAt_self _ h
        have h3 := ih _ u _ h2
        rw [h3]
        have hrels : relsOf u (b :: rest) = p :: relsOf u rest := by
          unfold relsOf
          rw [List.filterMap_cons]
          simp [hbu, hrp]
        simp [hrels, List.append_assoc]
      | none =>
        have h2 : lookupE (bindStep acc b) u = some m := by
          unfold bindStep
          rw [if_pos hkey, hrp]
          exact h
        have h3 := ih _ u _ h2
        rw [h3]
        have hrels : relsOf u (b :: rest) = relsOf u rest := by
          unfold relsOf
          rw [List.filterMap_cons]
          simp [hbu, hrp]
        rw [hrels]
    · have h2 : lookupE (bindStep acc b) u = some m := by
        unfold bindStep
        cases hrp : relPair b with
        | some p =>
          by_cases hk : hasKeyE acc b.entity
          · rw [if_pos hk]
            rw [lookupE_updAt_ne _ hbu]
            exact h
          · rw [if_neg hk]
            rw [lookupE_updAt_ne _ hbu]
            exact lookupE_append_left _ h
        | none =>
          by_cases hk : hasKeyE acc b.entity
          · rw [if_pos hk]; exact h
          · rw [if_neg hk]; exact lookupE_append_left _ h
      have h3 := ih _ u _ h2
      rw [h3]
      have hrels : relsOf u (b :: rest) = relsOf u rest := by
        unfold relsOf
        rw [List.filterMap_cons]
        simp [hbu]
      rw [hrels]

/-- The first `bindStep` on the empty accumulator creates exactly the record
of the first binding. -/
theorem bindStep_nil (b0 : Binding) :
    bindStep [] b0 =
      [(b0.entity, { initRec b0 with related_entities := relsOf b0.entity [b0] })] := by
  unfold bindStep
  have hk : hasKeyE [] b0.entity = false := rfl
  rw [hk]
  cases hrp : relPair b0 with
  | some p =>
    simp only [Bool.false_eq_true, if_false, List.nil_append]
    unfold updAt relsOf
    rw [List.filterMap_cons]
    simp [hrp, initRec]
  | none =>
    simp only [Bool.false_eq_true, if_false, List.nil_append]
    unfold relsOf
    rw [List.filterMap_cons]
    simp [hrp, initRec]

/-! ## C2: `query_medical_entity` returns the first entity's record -/

/-- C2: for every SPARQL response, `query_medical_entity` returns `none` when
there are no bindings, and otherwise exactly one record — the one built from
the first entity URI appearing in the bindings (its label, description and
type come from the first binding; its related list collects the pairs of every
binding carrying that URI; records of all other entity URIs are discarded). -/
theorem query_medical_entity_spec (bs : List Binding) :
    query_medical_entity bs = bs.head?.map (fun b0 => buildRecord b0 bs) := by
  cases bs with
  | nil => rfl
  | cons b0 rest =>
    unfold query_medical_entity entityData
    rw [List.foldl_cons, bindStep_nil]
    have h0 : lookupE [(b0.entity, { initRec b0 with
        related_entities := relsOf b0.entity [b0] })] b0.entity =
        some { initRec b0 with related_entities := relsOf b0.entity [b0] } :=
      lookupE_head _ _ _
    have hml := lookupE_foldl_bindStep rest _ b0.entity _ h0
    obtain ⟨hne, hkey⟩ := foldl_bindStep_keyOf rest
      [(b0.entity, { initRec b0 with related_entities := relsOf b0.entity [b0] })]
      (by simp)
    obtain ⟨p, t, hpt⟩ := List.exists_cons_of_ne_nil hne
    rw [hpt] at hkey hml ⊢
    simp only [List.head?_cons, Option.map_some'] at hkey ⊢
    have hp1 : p.1 = b0.entity := by
      simpa using hkey
    have hlp : lookupE (p :: t) b0.entity = some p.2 := by
      rw [← hp1]
      rw [show p = (p.1, p.2) from rfl]
      exact lookupE_head p.1 p.2 t
    rw [hml] at hlp
    have hp2 : p.2 = { initRec b0 with
        related_entities := relsOf b0.entity [b0] ++ relsOf b0.entity rest } := by
      have := Option.some.inj hlp
      simpa using this.symm
    have hsplit : relsOf b0.entity (b0 :: rest) =
        relsOf b0.entity [b0] ++ relsOf b0.entity rest := by
      unfold relsOf
      rw [show (b0 :: rest) = [b0] ++ rest from rfl, List.filterMap_append]
    rw [hp2]
    simp [buildRecord, hsplit]

/-! ## C3: related-entity count for a single-URI response -/

theorem relsOf_length_of_all (u : String) :
    ∀ bs : List Binding, (∀ b ∈ bs, b.entity = u) →
      (relsOf u bs).length =
        (bs.filter (fun b => b.related.isSome && b.relatedLabel.isSome)).length := by
  intro bs
  induction bs with
  | nil => intro _; rfl
  | cons b t ih =>
    intro hall
    have hb : b.entity = u := hall b (List.mem_cons_self b t)
    have ht : ∀ x ∈ t, x.entity = u := fun x hx => hall x (List.mem_cons_of_mem b hx)
    unfold relsOf
    rw [List.filterMap_cons, List.filter_cons]
    rcases hr : b.related with _ | r <;> rcases hrl : b.relatedLabel with _ | rl <;>
      simp [hb, relPair, hr, hrl] <;>
      simpa [relsOf] using ih ht

/-- C3: for every non-empty SPARQL response whose bindings all carry the same
entity URI, `query_medical_entity` returns a record whose
`related_entities` list has length equal to the number of bindings carrying
both `related` and `relatedLabel`. -/
theorem related_entities_length (bs : List Binding) (u : String)
    (hne : bs ≠ []) (hall : ∀ b ∈ bs, b.entity = u) :
    ∃ m, query_medical_entity bs = some m ∧
      m.related_entities.length =
        (bs.filter (fun b => b.related.isSome && b.relatedLabel.isSome)).length := by
  cases bs with
  | nil => exact absurd rfl hne
  | cons b0 rest =>
    rw [query_medical_entity_spec]
    refine ⟨buildRecord b0 (b0 :: rest), by simp, ?_⟩
    show (relsOf b0.entity (b0 :: rest)).length = _
    rw [hall b0 (List.mem_cons_self b0 rest)]
    exact relsOf_length_of_all u (b0 :: rest) hall

/-- Witness for C3 at the concrete two-binding response `bsEx`. -/
theorem related_entities_length_witness :
    bsEx ≠ [] ∧ (∀ b ∈ bsEx, b.entity = "http://dbpedia.org/resource/X") ∧
      (∃ m, query_medical_entity bsEx = some m ∧
        m.related_entities.length =
          (bsEx.filter (fun b => b.related.isSome && b.relatedLabel.isSome)).length) :=
  ⟨by decide, by decide,
    related_entities_length bsEx "http://dbpedia.org/resource/X" (by decide) (by decide)⟩

end Glarf

namespace Glarf

/-! ## Write-operation algebra for C1 -/

theorem or_or_self (o y : Option α) : o.or (o.or y) = o.or y := by
  cases o <;> rfl

theorem applyW_emptyW (a : GNodeAttrs) : applyW emptyW a = a := by
  simp [applyW, emptyW]

theorem applyW_mergeW (w2 w1 : FieldW) (a : GNodeAttrs) :
    applyW (mergeW w2 w1) a = applyW w2 (applyW w1 a) := by
  simp [applyW, mergeW, Option.or_assoc]

theorem applyW_applyW (w : FieldW) (a : GNodeAttrs) :
    applyW w (applyW w a) = applyW w a := by
  simp [applyW, or_or_self]

theorem mergeW_emptyW (w : FieldW) : mergeW w emptyW = w := by
  simp [mergeW, emptyW, Option.or_none]

/-! ### How each operation transforms `attrAt` -/

theorem findmap_isSome (l : List (String × GNodeAttrs)) (k : String) :
    ((l.find? (fun p => p.1 = k)).map (fun p => p.2)).isSome =
      l.any (fun p => p.1 = k) := by
  induction l with
  | nil => rfl
  | cons p t ih =>
    by_cases hp : p.1 = k <;> simp [List.find?_cons, List.any_cons, hp, ih]

theorem attrAt_isSome (g : KGraph) (k : String) :
    (attrAt g k).isSome = hasNode g k :=
  findmap_isSome g.nodes k

theorem find_map_upd (l : List (String × GNodeAttrs)) (k : String)
    (f : GNodeAttrs → GNodeAttrs) :
    (((l.map (fun p => if p.1 = k then (p.1, f p.2) else p)).find?
        (fun p => p.1 = k)).map (fun p => p.2)) =
      ((l.find? (fun p => p.1 = k)).map (fun p => p.2)).map f := by
  induction l with
  | nil => rfl
  | cons p t ih =>
    by_cases hp : p.1 = k
    · simp [List.find?_cons, hp]
    · simp only [List.map_cons, if_neg hp]
      rw [List.find?_cons, List.find?_cons]
      simp only [decide_eq_false hp, Bool.false_eq_true]
      exact ih

theorem find_map_upd_ne (l : List (String × GNodeAttrs)) (kk k : String)
    (f : GNodeAttrs → GNodeAttrs) (hne : kk ≠ k) :
    (((l.map (fun p => if p.1 = kk then (p.1, f p.2) else p)).find?
        (fun p => p.1 = k)).map (fun p => p.2)) =
      ((l.find? (fun p => p.1 = k)).map (fun p => p.2)) := by
  induction l with
  | nil => rfl
  | cons p t ih =>
    by_cases hp : p.1 = kk
    · have hpk : ¬ p.1 = k := fun hh => hne (hp ▸ hh)
      simp only [List.map_cons, if_pos hp]
      rw [List.find?_cons, List.find?_cons]
      simp only [decide_eq_false hpk, Bool.false_eq_true]
      exact ih
    · simp only [List.map_cons, if_neg hp]
      by_cases hpk : p.1 = k
      · simp [List.find?_cons, hpk]
      · rw [List.find?_cons, List.find?_cons]
        simp only [decide_eq_false hpk, Bool.false_eq_true]
        exact ih

theorem attrAt_addNodeWith (g : KGraph) (kk k : String) (f : GNodeAttrs → GNodeAttrs) :
    attrAt (addNodeWith g kk f) k =
      if kk = k then some (f ((attrAt g k).getD emptyAttrs)) else attrAt g k := by
  unfold addNodeWith
  by_cases h : hasNode g kk
  · rw [if_pos h]
    by_cases hk : kk = k
    · subst hk
      have hs : (attrAt g kk).isSome = true := by rw [attrAt_isSome]; exact h
      obtain ⟨a, ha⟩ := Option.isSome_iff_exists.mp hs
      show ((g.nodes.map _).find? _).map _ = _
      rw [find_map_upd, if_pos rfl]
      show (attrAt g kk).map f = _
      rw [ha]
      simp
    · rw [if_neg hk]
      exact find_map_upd_ne g.nodes kk k f hk
  · rw [if_neg h]
    have hf : hasNode g kk = false := by simpa using h
    have h1 : attrAt g kk = none := by
      rw [← Option.not_isSome_iff_eq_none, attrAt_isSome, hf]
      simp
    have hfind : g.nodes.find? (fun p => p.1 = kk) = none :=
      Option.map_eq_none'.mp h1
    show ((g.nodes ++ [(kk, f emptyAttrs)]).find? (fun p => p.1 = k)).map (fun p => p.2) = _
    rw [List.find?_append]
    by_cases hk : kk = k
    · subst hk
      rw [hfind, h1]
      simp [List.find?_cons]
    · rw [if_neg hk]
      have hsingle : List.find? (fun p => p.1 = k) [(kk, f emptyAttrs)] = none := by
        simp [List.find?_cons, hk]
      rw [hsingle, Option.or_none]
      rfl

end Glarf

namespace Glarf

theorem attrAt_congr_nodes {g h : KGraph} (k : String) (hn : g.nodes = h.nodes) :
    attrAt g k = attrAt h k := by
  unfold attrAt
  rw [hn]

theorem attrAt_ensureNodeK (g : KGraph) (u k : String) :
    attrAt (ensureNodeK g u) k =
      if u = k then some ((attrAt g k).getD emptyAttrs) else attrAt g k := by
  unfold ensureNodeK
  by_cases h : hasNode g u
  · rw [if_pos h]
    by_cases hk : u = k
    · subst hk
      have hs : (attrAt g u).isSome = true := by rw [attrAt_isSome]; exact h
      obtain ⟨a, ha⟩ := Option.isSome_iff_exists.mp hs
      rw [if_pos rfl, ha]
      rfl
    · rw [if_neg hk]
  · rw [if_neg h]
    have hf : hasNode g u = false := by simpa using h
    have h1 : attrAt g u = none := by
      rw [← Option.not_isSome_iff_eq_none, attrAt_isSome, hf]
      simp
    have hfind : g.nodes.find? (fun p => p.1 = u) = none :=
      Option.map_eq_none'.mp h1
    show ((g.nodes ++ [(u, emptyAttrs)]).find? (fun p => p.1 = k)).map (fun p => p.2) = _
    rw [List.find?_append]
    by_cases hk : u = k
    · subst hk
      rw [hfind, h1]
      simp [List.find?_cons]
    · rw [if_neg hk]
      have hsingle : List.find? (fun p => p.1 = k) [(u, emptyAttrs)] = none := by
        simp [List.find?_cons, hk]
      rw [hsingle, Option.or_none]
      rfl

theorem addEdgeK_nodes (g : KGraph) (u v : String) :
    (addEdgeK g u v).nodes = (ensureNodeK (ensureNodeK g u) v).nodes := by
  unfold addEdgeK
  by_cases h : (u, v) ∈ (ensureNodeK (ensureNodeK g u) v).edges
  · rw [if_pos h]
  · rw [if_neg h]

theorem attrAt_addEdgeK (g : KGraph) (u v k : String) :
    attrAt (addEdgeK g u v) k =
      if u = k || v = k then some ((attrAt g k).getD emptyAttrs) else attrAt g k := by
  rw [attrAt_congr_nodes k (addEdgeK_nodes g u v)]
  rw [attrAt_ensureNodeK, attrAt_ensureNodeK]
  by_cases hu : u = k
  · by_cases hv : v = k <;> simp [hu, hv]
  · by_cases hv : v = k <;> simp [hu, hv]

/-- Characterisation of the attributes after a list of write operations: a key
that is touched (or already present) holds the composite write applied to its
old attributes (or to the empty dict), every other key is untouched. -/
theorem attrAt_applyOps :
    ∀ (ops : List GOp) (g : KGraph) (k : String),
      attrAt (applyOps g ops) k =
        if touched ops k || (attrAt g k).isSome
        then some (applyW (totalW ops k) ((attrAt g k).getD emptyAttrs))
        else none := by
  intro ops
  induction ops with
  | nil =>
    intro g k
    cases hA : attrAt g k <;>
      simp [applyOps, touched, totalW, applyW_emptyW, hA]
  | cons op rest ih =>
    intro g k
    show attrAt (applyOps (applyOp g op) rest) k = _
    rw [ih (applyOp g op) k]
    have htot : totalW (op :: rest) k = mergeW (totalW rest k) (writeOf op k) := rfl
    have htch : touched (op :: rest) k = (touches op k || touched rest k) := by
      simp [touched, List.any_cons]
    cases op with
    | setn kk w =>
      have hA : attrAt (applyOp g (GOp.setn kk w)) k =
          if kk = k then some (applyW w ((attrAt g k).getD emptyAttrs))
          else attrAt g k := by
        show attrAt (addNodeWith g kk (applyW w)) k = _
        exact attrAt_addNodeWith g kk k (applyW w)
      rw [hA, htot, htch]
      by_cases hk : kk = k
      · subst hk
        have h1 : touches (GOp.setn kk w) kk = true := by simp [touches]
        have h2 : writeOf (GOp.setn kk w) kk = w := by simp [writeOf]
        rw [h1, h2]
        simp [applyW_mergeW]
      · have h1 : touches (GOp.setn kk w) k = false := by simp [touches, hk]
        have h2 : writeOf (GOp.setn kk w) k = emptyW := by simp [writeOf, hk]
        rw [h1, h2, mergeW_emptyW, if_neg hk]
        simp
    | edge u v =>
      have hA : attrAt (applyOp g (GOp.edge u v)) k =
          if u = k || v = k then some ((attrAt g k).getD emptyAttrs)
          else attrAt g k := attrAt_addEdgeK g u v k
      have h2 : writeOf (GOp.edge u v) k = emptyW := rfl
      rw [hA, htot, htch, h2, mergeW_emptyW]
      by_cases huv : (u = k || v = k) = true
      · have ht : touches (GOp.edge u v) k = true := by
          simpa [touches] using huv
        rw [if_pos huv, ht]
        simp
      · have huv' : (u = k || v = k) = false := by simpa using huv
        have ht : touches (GOp.edge u v) k = false := by
          simpa [touches] using huv
        rw [huv', ht]
        simp

theorem totalW_eq_empty : ∀ {ops : List GOp} {k : String},
    touched ops k = false → totalW ops k = emptyW := by
  intro ops
  induction ops with
  | nil => intro k _; rfl
  | cons op rest ih =>
    intro k h
    have hh : touches op k = false ∧ touched rest k = false := by
      simpa [touched, List.any_cons] using h
    have hw : writeOf op k = emptyW := by
      cases op with
      | setn kk w =>
        have : ¬ kk = k := by simpa [touches] using hh.1
        simp [writeOf, this]
      | edge u v => rfl
    show mergeW (totalW rest k) (writeOf op k) = emptyW
    rw [hw, ih hh.2, mergeW_emptyW]

end Glarf

namespace Glarf

/-! ### Edge bookkeeping for C1 -/

theorem addNodeWith_edges (g : KGraph) (k : String) (f : GNodeAttrs → GNodeAttrs) :
    (addNodeWith g k f).edges = g.edges := by
  unfold addNodeWith
  by_cases h : hasNode g k
  · rw [if_pos h]
  · rw [if_neg h]

theorem ensureNodeK_edges (g : KGraph) (u : String) :
    (ensureNodeK g u).edges = g.edges := by
  unfold ensureNodeK
  by_cases h : hasNode g u
  · rw [if_pos h]
  · rw [if_neg h]

theorem edges_applyOp_mono {g : KGraph} {e : String × String} (op : GOp)
    (h : e ∈ g.edges) : e ∈ (applyOp g op).edges := by
  cases op with
  | setn k w =>
    show e ∈ (addNodeWith g k (applyW w)).edges
    rw [addNodeWith_edges]
    exact h
  | edge u v =>
    show e ∈ (addEdgeK g u v).edges
    unfold addEdgeK
    have h1 : e ∈ (ensureNodeK (ensureNodeK g u) v).edges := by
      rw [ensureNodeK_edges, ensureNodeK_edges]
      exact h
    by_cases hm : (u, v) ∈ (ensureNodeK (ensureNodeK g u) v).edges
    · rw [if_pos hm]
      exact h1
    · rw [if_neg hm]
      exact List.mem_append_left _ h1

theorem edges_applyOps_mono : ∀ (ops : List GOp) {g : KGraph} {e : String × String},
    e ∈ g.edges → e ∈ (applyOps g ops).edges := by
  intro ops
  induction ops with
  | nil => exact fun h => h
  | cons op rest ih =>
    intro g e h
    exact ih (edges_applyOp_mono op h)

theorem edge_mem_applyOps : ∀ (ops : List GOp) (g : KGraph) (u v : String),
    GOp.edge u v ∈ ops → (u, v) ∈ (applyOps g ops).edges := by
  intro ops
  induction ops with
  | nil => intro g u v h; cases h
  | cons op rest ih =>
    intro g u v h
    rcases List.mem_cons.mp h with h | h
    · subst h
      refine edges_applyOps_mono rest ?_
      show (u, v) ∈ (addEdgeK g u v).edges
      unfold addEdgeK
      by_cases hm : (u, v) ∈ (ensureNodeK (ensureNodeK g u) v).edges
      · rw [if_pos hm]
        exact hm
      · rw [if_neg hm]
        exact List.mem_append_right _ (List.mem_singleton.mpr rfl)
    · exact ih _ u v h

theorem edges_applyOps_of_all_mem :
    ∀ (ops : List GOp) (g : KGraph),
      (∀ u v, GOp.edge u v ∈ ops → (u, v) ∈ g.edges) →
      (applyOps g ops).edges = g.edges := by
  intro ops
  induction ops with
  | nil => exact fun g _ => rfl
  | cons op rest ih =>
    intro g hall
    show (applyOps (applyOp g op) rest).edges = g.edges
    have hop : (applyOp g op).edges = g.edges := by
      cases op with
      | setn k w => exact addNodeWith_edges g k (applyW w)
      | edge u v =>
        show (addEdgeK g u v).edges = g.edges
        unfold addEdgeK
        have hm : (u, v) ∈ (ensureNodeK (ensureNodeK g u) v).edges := by
          rw [ensureNodeK_edges, ensureNodeK_edges]
          exact hall u v (List.mem_cons_self _ _)
        rw [if_pos hm, ensureNodeK_edges, ensureNodeK_edges]
    rw [ih (applyOp g op) (fun u v hm => by
      rw [hop]
      exact hall u v (List.mem_cons_of_mem op hm)), hop]

/-! ### `update_knowledge_graph` is the interpretation of its operation list -/

theorem foldl_related_eq_applyOps (e : MedicalEntity) :
    ∀ (rels : List RelatedEntity) (g1 : KGraph),
      rels.foldl (fun acc r =>
          addEdgeK (addNodeWith acc r.uri (fun a => { a with label := some r.label }))
            e.uri r.uri) g1 =
        applyOps g1 (rels.flatMap
          (fun r => [GOp.setn r.uri ⟨some r.label, none, none⟩, GOp.edge e.uri r.uri])) := by
  intro rels
  induction rels with
  | nil => intro g1; rfl
  | cons r t ih =>
    intro g1
    rw [List.foldl_cons, List.flatMap_cons]
    have hstep : addEdgeK (addNodeWith g1 r.uri (fun a => { a with label := some r.label }))
        e.uri r.uri =
        applyOp (applyOp g1 (GOp.setn r.uri ⟨some r.label, none, none⟩))
          (GOp.edge e.uri r.uri) := rfl
    rw [hstep]
    exact ih _

theorem update_eq_applyOps (e : MedicalEntity) (g : KGraph) :
    update_knowledge_graph e g = applyOps g (opsOf e) := by
  have hsplit : applyOps g (opsOf e) =
      applyOps (applyOp g (GOp.setn e.uri
          ⟨some e.label, some e.entity_type, some e.description⟩))
        (e.related_entities.flatMap
          (fun r => [GOp.setn r.uri ⟨some r.label, none, none⟩, GOp.edge e.uri r.uri])) :=
    rfl
  rw [hsplit]
  show e.related_entities.foldl _
      (addNodeWith g e.uri (fun a =>
        { a with
          label := some e.label
          entity_type := some e.entity_type
          description := some e.description })) = _
  have hmain : addNodeWith g e.uri (fun a =>
      { a with
        label := some e.label
        entity_type := some e.entity_type
        description := some e.description }) =
      applyOp g (GOp.setn e.uri ⟨some e.label, some e.entity_type, some e.description⟩) :=
    rfl
  rw [hmain]
  exact foldl_related_eq_applyOps e e.related_entities _

end Glarf

namespace Glarf

/-! ## C1: `update_knowledge_graph` is idempotent outright -/

/-- Counterexample to C1 as stated: at the concrete entity `e1` (one related
entity) starting from the empty graph, node attributes are idempotent *and*
the edge count after two calls equals the edge count after one call (the
duplicate `add_edge` silently no-ops), so the claimed conjunction — in
particular "the edge count after two calls differs from the edge count after
one call" — is false. -/
theorem update_knowledge_graph_edgecount_cex :
    ¬ ((∀ k, attrAt (update_knowledge_graph e1 (update_knowledge_graph e1 emptyKG)) k =
          attrAt (update_knowledge_graph e1 emptyKG) k) ∧
        edgeCount (update_knowledge_graph e1 (update_knowledge_graph e1 emptyKG)) ≠
          edgeCount (update_knowledge_graph e1 emptyKG)) := by
  intro h
  exact h.2 (by decide)

/-- C1 amended: `update_knowledge_graph` applied twice with the same entity
record is idempotent both for node attributes and for the edge count: from any
starting graph, every node's attributes after the second call equal the
one-call result, and the edge count is unchanged as well (networkx silently
no-ops on a duplicate edge). -/
theorem update_knowledge_graph_idem (e : MedicalEntity) (g : KGraph) :
    (∀ k, attrAt (update_knowledge_graph e (update_knowledge_graph e g)) k =
        attrAt (update_knowledge_graph e g) k) ∧
      edgeCount (update_knowledge_graph e (update_knowledge_graph e g)) =
        edgeCount (update_knowledge_graph e g) := by
  rw [update_eq_applyOps e g, update_eq_applyOps e (applyOps g (opsOf e))]
  constructor
  · intro k
    rw [attrAt_applyOps (opsOf e) (applyOps g (opsOf e)) k,
      attrAt_applyOps (opsOf e) g k]
    by_cases ht : touched (opsOf e) k = true
    · simp [ht, applyW_applyW]
    · have ht' : touched (opsOf e) k = false := by simpa using ht
      rw [ht', totalW_eq_empty ht']
      cases hA : attrAt g k <;> simp [hA, applyW_emptyW]
  · show (applyOps (applyOps g (opsOf e)) (opsOf e)).edges.length =
      (applyOps g (opsOf e)).edges.length
    rw [edges_applyOps_of_all_mem (opsOf e) (applyOps g (opsOf e))
      (fun u v hm => edge_mem_applyOps (opsOf e) g u v hm)]

end Glarf

namespace Glarf

/-! ## `ragScan` characterisations (for C5 and C8) -/

theorem ragScan_fold_snd (q : String) :
    ∀ (l : List (String × GNodeAttrs)) (gacc : KGraph) (racc : List GNodeAttrs),
      (l.foldl (fun acc p =>
          if matchesQ q p.2 then
            (setUriAt acc.1 p.1, acc.2 ++ [{ p.2 with uri := some p.1 }])
          else acc) (gacc, racc)).2 =
        racc ++ (l.filter (fun p => matchesQ q p.2)).map
          (fun p => { p.2 with uri := some p.1 }) := by
  intro l
  induction l with
  | nil => intro gacc racc; simp
  | cons p t ih =>
    intro gacc racc
    rw [List.foldl_cons, List.filter_cons]
    by_cases hm : matchesQ q p.2
    · simp only [hm, if_true]
      rw [ih]
      simp
    · simp only [hm, Bool.false_eq_true, if_false]
      rw [ih]

theorem ragScan_snd (g : KGraph) (q : String) :
    (ragScan g q).2 = (g.nodes.filter (fun p => matchesQ q p.2)).map
      (fun p => { p.2 with uri := some p.1 }) := by
  unfold ragScan
  rw [ragScan_fold_snd]
  simp

theorem ragScan_fold_fst (q : String) :
    ∀ (l : List (String × GNodeAttrs)) (gacc : KGraph) (racc : List GNodeAttrs),
      (l.foldl (fun acc p =>
          if matchesQ q p.2 then
            (setUriAt acc.1 p.1, acc.2 ++ [{ p.2 with uri := some p.1 }])
          else acc) (gacc, racc)).1 =
        l.foldl (fun h p => if matchesQ q p.2 then setUriAt h p.1 else h) gacc := by
  intro l
  induction l with
  | nil => intro gacc racc; rfl
  | cons p t ih =>
    intro gacc racc
    rw [List.foldl_cons, List.foldl_cons]
    by_cases hm : matchesQ q p.2
    · simp only [hm, if_true]
      exact ih _ _
    · simp only [hm, Bool.false_eq_true, if_false]
      exact ih _ _

theorem setUriAt_edges (g : KGraph) (k : String) : (setUriAt g k).edges = g.edges := rfl

theorem ragScan_fst_edges (g : KGraph) (q : String) :
    (ragScan g q).1.edges = g.edges := by
  unfold ragScan
  rw [ragScan_fold_fst]
  generalize g.nodes = l
  induction l generalizing g with
  | nil => rfl
  | cons p t ih =>
    rw [List.foldl_cons]
    by_cases hm : matchesQ q p.2
    · simp only [hm, if_true]
      rw [ih (setUriAt g p.1)]
      rfl
    · simp only [hm, Bool.false_eq_true, if_false]
      exact ih g

/-- The node list after the scan loop: every node whose key belongs to the
matched-key list gets `uri := its key`, every other node is untouched. -/
theorem scan_fold_nodes (q : String) :
    ∀ (ms : List (String × GNodeAttrs)) (h : KGraph),
      (ms.foldl (fun acc p => if matchesQ q p.2 then setUriAt acc p.1 else acc) h).nodes =
        h.nodes.map (fun p =>
          if p.1 ∈ (ms.filter (fun x => matchesQ q x.2)).map Prod.fst
          then (p.1, { p.2 with uri := some p.1 }) else p) := by
  intro ms
  induction ms with
  | nil =>
    intro h
    simp
  | cons m t ih =>
    intro h
    rw [List.foldl_cons, List.filter_cons]
    by_cases hm : matchesQ q m.2
    · simp only [hm, if_true]
      rw [ih (setUriAt h m.1)]
      show (h.nodes.map _).map _ = _
      rw [List.map_map, List.map_cons]
      refine List.map_congr_left ?_
      intro p _
      by_cases hp : p.1 = m.1
      · by_cases hpk : p.1 ∈ (t.filter (fun x => matchesQ q x.2)).map Prod.fst
        · simp [Function.comp, hp, hpk]
        · simp [Function.comp, hp, hpk]
      · by_cases hpk : p.1 ∈ (t.filter (fun x => matchesQ q x.2)).map Prod.fst
        · simp [Function.comp, hp, hpk]
        · simp [Function.comp, hp, hpk]
    · simp only [hm, Bool.false_eq_true, if_false]
      exact ih h

theorem ragScan_fst_nodes (g : KGraph) (q : String) :
    (ragScan g q).1.nodes =
      g.nodes.map (fun p =>
        if p.1 ∈ (g.nodes.filter (fun x => matchesQ q x.2)).map Prod.fst
        then (p.1, { p.2 with uri := some p.1 }) else p) := by
  unfold ragScan
  rw [ragScan_fold_fst, scan_fold_nodes]

end Glarf

namespace Glarf

/-! ## C8: `generate_rag_context` mutates the graph -/

theorem eq_of_keys_nodup {l : List (String × GNodeAttrs)}
    (h : (l.map Prod.fst).Nodup) {p p' : String × GNodeAttrs}
    (hp : p ∈ l) (hp' : p' ∈ l) (hk : p.1 = p'.1) : p = p' := by
  induction l with
  | nil => cases hp
  | cons x t ih =>
    rw [List.map_cons, List.nodup_cons] at h
    rcases List.mem_cons.mp hp with h1 | h1 <;> rcases List.mem_cons.mp hp' with h2 | h2
    · rw [h1, h2]
    · exfalso
      apply h.1
      rw [← h1, hk]
      exact List.mem_map_of_mem Prod.fst h2
    · exfalso
      apply h.1
      rw [← h2, ← hk]
      exact List.mem_map_of_mem Prod.fst h1
    · exact ih h.2 h1 h2

/-- C8: `generate_rag_context` is not read-only.  Under the (networkx) model
validity assumption that node keys are unique, the graph after the call is the
old graph with a `uri` attribute (set to the node's own key) added to exactly
the nodes whose label matched the query — all non-matched nodes are unchanged
— and as soon as some matching node did not already carry that `uri` value,
the node-attribute store differs after the call from before it. -/
theorem generate_rag_context_mutates (g : KGraph) (q : String)
    (hnodup : (g.nodes.map Prod.fst).Nodup) :
    (generate_rag_context g q).1.nodes =
        g.nodes.map (fun p =>
          if matchesQ q p.2 then (p.1, { p.2 with uri := some p.1 }) else p) ∧
      ((∃ p ∈ g.nodes, matchesQ q p.2 = true ∧ p.2.uri ≠ some p.1) →
        (generate_rag_context g q).1.nodes ≠ g.nodes) := by
  have hchar : (generate_rag_context g q).1.nodes =
      g.nodes.map (fun p =>
        if matchesQ q p.2 then (p.1, { p.2 with uri := some p.1 }) else p) := by
    show (ragScan g q).1.nodes = _
    rw [ragScan_fst_nodes]
    refine List.map_congr_left ?_
    intro p hp
    by_cases hm : matchesQ q p.2
    · have hmem : p.1 ∈ (g.nodes.filter (fun x => matchesQ q x.2)).map Prod.fst :=
        List.mem_map_of_mem Prod.fst (List.mem_filter.mpr ⟨hp, hm⟩)
      simp [hmem, hm]
    · have hmem : p.1 ∉ (g.nodes.filter (fun x => matchesQ q x.2)).map Prod.fst := by
        intro hc
        obtain ⟨p', hp', hk⟩ := List.mem_map.mp hc
        have hp'n : p' ∈ g.nodes := (List.mem_filter.mp hp').1
        have hp'm : matchesQ q p'.2 = true := by
          simpa using (List.mem_filter.mp hp').2
        have : p' = p := eq_of_keys_nodup hnodup hp'n hp hk
        rw [this] at hp'm
        exact hm hp'm
      simp [hmem, hm]
  refine ⟨hchar, ?_⟩
  rintro ⟨p, hp, hm, hu⟩ heq
  rw [hchar] at heq
  obtain ⟨i, hi, hpi⟩ := List.getElem_of_mem hp
  have hmap : (g.nodes.map (fun p =>
      if matchesQ q p.2 then (p.1, { p.2 with uri := some p.1 }) else p))[i]? =
      g.nodes[i]? := by rw [heq]
  rw [List.getElem?_map] at hmap
  have hgi : g.nodes[i]? = some p := by
    rw [List.getElem?_eq_getElem hi, hpi]
  rw [hgi] at hmap
  simp only [Option.map_some', Option.some.injEq] at hmap
  rw [hm, if_pos rfl] at hmap
  have : ({ p.2 with uri := some p.1 } : GNodeAttrs).uri = p.2.uri :=
    congrArg GNodeAttrs.uri (congrArg Prod.snd hmap)
  exact hu (by simpa using this.symm)

/-- Witness for C8 at the concrete graph `g5` and query `"alp"`: node `A`
matches and acquires `uri := "A"`, node `B` does not match and is unchanged,
and the node store differs. -/
theorem generate_rag_context_mutates_witness :
    (g5.nodes.map Prod.fst).Nodup ∧
      (∃ p ∈ g5.nodes, matchesQ "alp" p.2 = true ∧ p.2.uri ≠ some p.1) ∧
      (generate_rag_context g5 "alp").1.nodes =
        g5.nodes.map (fun p =>
          if matchesQ "alp" p.2 then (p.1, { p.2 with uri := some p.1 }) else p) ∧
      (generate_rag_context g5 "alp").1.nodes ≠ g5.nodes := by
  have hnodup : (g5.nodes.map Prod.fst).Nodup := by decide
  have hex : ∃ p ∈ g5.nodes, matchesQ "alp" p.2 = true ∧ p.2.uri ≠ some p.1 :=
    ⟨("A", ⟨some "alpha", none, none, none⟩), by decide, by decide, by decide⟩
  exact ⟨hnodup, hex, (generate_rag_context_mutates g5 "alp" hnodup).1,
    (generate_rag_context_mutates g5 "alp" hnodup).2 hex⟩

end Glarf

namespace Glarf

/-! ## C5: the context produced by `generate_rag_context` -/

theorem find?_map_keypres (l : List (String × GNodeAttrs)) (n : String)
    (f : String × GNodeAttrs → String × GNodeAttrs) (hf : ∀ p, (f p).1 = p.1) :
    (l.map f).find? (fun p => p.1 = n) = (l.find? (fun p => p.1 = n)).map f := by
  induction l with
  | nil => rfl
  | cons p t ih =>
    rw [List.map_cons, List.find?_cons, List.find?_cons]
    by_cases hp : p.1 = n
    · have : (f p).1 = n := by rw [hf p]; exact hp
      simp [this, hp]
    · have : ¬ (f p).1 = n := by rw [hf p]; exact hp
      simp only [decide_eq_false this, decide_eq_false hp, Bool.false_eq_true]
      exact ih

theorem ragScan_attr_label (g : KGraph) (q : String) (n : String) :
    (attrAt (ragScan g q).1 n).bind (fun a => a.label) =
      (attrAt g n).bind (fun a => a.label) := by
  unfold attrAt
  rw [show (ragScan g q).1.nodes = _ from ragScan_fst_nodes g q]
  rw [find?_map_keypres _ _ _ (fun p => by
    by_cases hp : p.1 ∈ (g.nodes.filter (fun x => matchesQ q x.2)).map Prod.fst <;>
      simp [hp])]
  cases hfind : g.nodes.find? (fun p => p.1 = n) with
  | none => rfl
  | some p =>
    by_cases hp : p.1 ∈ (g.nodes.filter (fun x => matchesQ q x.2)).map Prod.fst <;>
      simp [hp]

theorem succs_ragScan (g : KGraph) (q : String) (u : String) :
    succs (ragScan g q).1 u = succs g u := by
  unfold succs
  rw [ragScan_fst_edges]

theorem mapO_map (f : β → Option γ) (h : α → β) (l : List α) :
    Nyuck.mapO f (l.map h) = Nyuck.mapO (fun a => f (h a)) l := by
  induction l with
  | nil => rfl
  | cons a t ih =>
    rw [List.map_cons]
    show Nyuck.mapO f (h a :: t.map h) = _
    cases hfa : f (h a) with
    | none => simp [Nyuck.mapO, hfa]
    | some b => simp [Nyuck.mapO, hfa, ih]

theorem entryFor_eq (g : KGraph) (q : String) (p : String × GNodeAttrs)
    (hlab : ∀ n ∈ succs g p.1, ((attrAt g n).bind (fun a => a.label)).isSome = true) :
    entryFor (ragScan g q).1 { p.2 with uri := some p.1 } = some (lineFor g p) := by
  show (Nyuck.mapO (fun n => (attrAt (ragScan g q).1 n).bind (fun na => na.label))
      (succs (ragScan g q).1 p.1)).map _ = _
  rw [succs_ragScan]
  have hmap : Nyuck.mapO (fun n => (attrAt (ragScan g q).1 n).bind (fun na => na.label))
      (succs g p.1) =
      some ((succs g p.1).map
        (fun n => ((attrAt g n).bind (fun na => na.label)).getD "")) := by
    refine Nyuck.mapO_eq_some _ ?_
    intro n hn
    rw [ragScan_attr_label]
    obtain ⟨l, hl⟩ := Option.isSome_iff_exists.mp (hlab n hn)
    simp [hl]
  rw [hmap]
  rfl

/-- C5 amended: the inclusion condition is as claimed (a node enters the
context iff some whitespace token of the lowercased query occurs in its
lowercased label, the missing label counting as empty), **but** the context is
not a bare concatenation of one line per matching node: it is a fixed header
followed, per matching node in graph iteration order, by a description line
plus — when the node has outgoing edges — a `Related:` line; and the call
raises unless every neighbor of a matching node is a labelled node (the
hypothesis below). -/
theorem generate_rag_context_spec (g : KGraph) (q : String)
    (H : ∀ p ∈ g.nodes, matchesQ q p.2 = true →
      ∀ n ∈ succs g p.1, ((attrAt g n).bind (fun a => a.label)).isSome = true) :
    (generate_rag_context g q).2 =
      some ("Medical Knowledge Context:\n\n" ++
        String.join ((g.nodes.filter (fun p => matchesQ q p.2)).map
          (fun p => lineFor g p))) := by
  show (buildContext (ragScan g q).1 (ragScan g q).2) = _
  rw [buildContext, ragScan_snd, mapO_map]
  have h1 : Nyuck.mapO (fun p => entryFor (ragScan g q).1 { p.2 with uri := some p.1 })
      (g.nodes.filter (fun p => matchesQ q p.2)) =
      some ((g.nodes.filter (fun p => matchesQ q p.2)).map (fun p => lineFor g p)) := by
    refine Nyuck.mapO_eq_some _ ?_
    intro p hp
    have hmem := List.mem_filter.mp hp
    exact entryFor_eq g q p (H p hmem.1 (by simpa using hmem.2))
  rw [h1]
  rfl

/-- Counterexample to C5 as stated: on the empty graph no node matches, so the
claimed "concatenation of one line per matching node" would be the empty
string — but the code always prepends a fixed non-empty header, so the context
is not that concatenation. -/
theorem generate_rag_context_header_cex :
    (generate_rag_context emptyKG "x").2 = some "Medical Knowledge Context:\n\n" ∧
      "Medical Knowledge Context:\n\n" ≠ "" := by
  refine ⟨rfl, by decide⟩

/-- Witness for the amended C5 at the concrete graph `g5` and query `"alp"`:
only node `A` (label `alpha`) matches the token `alp`, and the context is the
header plus `A`'s description line and its `Related: beta` line. -/
theorem generate_rag_context_spec_witness :
    (∀ p ∈ g5.nodes, matchesQ "alp" p.2 = true →
        ∀ n ∈ succs g5 p.1, ((attrAt g5 n).bind (fun a => a.label)).isSome = true) ∧
      (generate_rag_context g5 "alp").2 =
        some ("Medical Knowledge Context:\n\n" ++
          String.join ((g5.nodes.filter (fun p => matchesQ "alp" p.2)).map
            (fun p => lineFor g5 p))) := by
  have hH : ∀ p ∈ g5.nodes, matchesQ "alp" p.2 = true →
      ∀ n ∈ succs g5 p.1, ((attrAt g5 n).bind (fun a => a.label)).isSome = true := by
    decide
  exact ⟨hH, generate_rag_context_spec g5 "alp" hH⟩

end Glarf
